import Mathlib

/-!
Verification of the forecast-discussion-alerts program (`src/main.go`).

The Go source is shallowly embedded: strings are `List Char` (wrapped in
`String` at the interfaces), the two regular-expression-based routines
(`GetDiscussionSection` and `sanitizeString`) are translated into explicit
recursive functions that implement the semantics of the concrete patterns
used by the code under Go's `regexp` (RE2, leftmost-first, greedy/lazy
quantifiers, non-overlapping global replacement), and the HTTP layer is
abstracted by passing fetch results / fetch oracles as parameters.

Modelling notes on Go regexp semantics used below:
* `\s` in Go is the ASCII class `[\t\n\f\r ]`.
* `\p{Zs}` is the Unicode space-separator category.
* Case-insensitive matching (`(?i)`) uses simple case folding; the model
  folds via ASCII `toLower` extended with the two non-ASCII characters
  (U+212A KELVIN SIGN, U+017F LONG S) that fold onto ASCII letters, which
  is exact for the ASCII pattern tokens this program builds.
* `ReplaceAllString` replaces successive non-overlapping leftmost matches,
  resuming the scan immediately after each match.
-/

deriving instance DecidableEq for Except

namespace AFD

/-- Go `\s`: the ASCII whitespace class `[\t\n\f\r ]`. -/
def isGoSpace (c : Char) : Bool :=
  c = ' ' || c = '\t' || c = '\n' || c = '\x0c' || c = '\r'

/-- Unicode category Zs (space separators), per the Unicode table. -/
def isZs (c : Char) : Bool :=
  c = ' ' || c = ' ' || c = ' ' ||
  (' ' ≤ c && c ≤ ' ') || c = ' ' || c = ' ' || c = '　'

/-- The character class `[\s\p{Zs}]` of the trimming regex in `sanitizeString`. -/
def goWhite (c : Char) : Bool := isGoSpace c || isZs c

/-- The delimiter class `[.\s]` of the section-header regex (main.go line 112). -/
def isDelim (c : Char) : Bool := c = '.' || isGoSpace c

/-- Case-folding base used for `(?i)` matching: ASCII lowering plus the two
non-ASCII characters whose Go simple-fold orbit contains an ASCII letter. -/
def foldBase (c : Char) : Char :=
  if c = 'K' then 'k' else if c = 'ſ' then 's' else c.toLower

/-- Case-insensitive character match, as Go `(?i)` literal matching. -/
def foldEq (a b : Char) : Bool := foldBase a = foldBase b

/-! ### The normalizer `sanitizeString` (main.go lines 218-229)

Each of the four `ReplaceAllString` calls is translated into a recursive
function implementing the corresponding pattern's global replacement. -/

/-- Regex 1, `^[\s\p{Zs}]+|[\s\p{Zs}]+$` replaced by the empty string:
removes the maximal leading and trailing runs of `goWhite` characters. -/
def trimGo (l : List Char) : List Char :=
  ((l.dropWhile goWhite).reverse.dropWhile goWhite).reverse

/-- Regex 2, `([^\n])(\n)([^\n])` replaced by `$1$3`: a left-to-right
non-overlapping scan; each match consumes three characters and emits the
two flanking ones, and the scan resumes after the consumed window. -/
def joinNewlines : List Char → List Char
  | a :: b :: c :: rest =>
    if a ≠ '\n' ∧ b = '\n' ∧ c ≠ '\n' then a :: c :: joinNewlines rest
    else a :: joinNewlines (b :: c :: rest)
  | l => l

/-- Helper of `despace`: `n` is the length of the run of consecutive `' '`
characters read immediately before the current position; reaching a
non-space (or the end) flushes the run, keeping it only when it was a
single space. -/
def despaceAux : Nat → List Char → List Char
  | n, [] => if n = 1 then [' '] else []
  | n, c :: rest =>
    if c = ' ' then despaceAux (n + 1) rest
    else (if n = 1 then [' '] else []) ++ c :: despaceAux 0 rest

/-- Regex 3, `(?m) {2,}` replaced by the empty string: the greedy leftmost
non-overlapping matches of ` {2,}` are exactly the maximal runs of two or
more consecutive `' '` characters, so each such run is deleted entirely
((?m) only affects `^`/`$`, which the pattern does not contain). -/
def despace (l : List Char) : List Char := despaceAux 0 l

/-- Regex 4, `[\t\r]` replaced by the empty string: every tab and
carriage-return character is removed. -/
def stripTabsCRs (l : List Char) : List Char :=
  l.filter (fun c => !(c = '\t' || c = '\r'))

/-- `sanitizeString` (main.go lines 218-229) on character lists: the four
replacements applied in the source's order. -/
def sanitizeCore (l : List Char) : List Char :=
  stripTabsCRs (despace (joinNewlines (trimGo l)))

/-- `sanitizeString` (main.go lines 218-229). -/
def sanitizeString (s : String) : String := ⟨sanitizeCore s.data⟩

/-- `formatDiscussionItem` (main.go lines 231-233):
`strings.ToUpper(discussionType) + ":\n\n" + discussionItem`. -/
def formatDiscussionItem (discussionType discussionItem : String) : String :=
  ⟨discussionType.data.map Char.toUpper⟩ ++ ":\n\n" ++ discussionItem

/-! ### The section matcher (main.go lines 108-122)

`GetDiscussionSection` compiles `(?is)\.NAME[.\s]+(.+?)&&` (NAME the
uppercased section name) and takes `FindStringSubmatch`, i.e. the
leftmost match, `[.\s]+` greedy, `(.+?)` lazy, `(?i)` case folding and
`(?s)` letting `.` match every character.  The functions below implement
exactly this search for a literal NAME token. -/

/-- Does the text start (case-insensitively) with the given pattern token? -/
def startsWithCI : List Char → List Char → Bool
  | [], _ => true
  | _ :: _, [] => false
  | p :: ps, t :: ts => foldEq p t && startsWithCI ps ts

/-- Is the literal terminator `&&` at the head of the list? -/
def ampAmp : List Char → Bool
  | a :: b :: _ => a = '&' && b = '&'
  | _ => false

/-- Index of the first occurrence of `&&`, if any. -/
def findAmpAmp : List Char → Option Nat
  | [] => none
  | l@(_ :: t) => if ampAmp l then some 0 else (findAmpAmp t).map (· + 1)

/-- One lazy-capture attempt: `(.+?)&&` matched against `l`, i.e. the
shortest nonempty prefix of `l` that is followed immediately by `&&`. -/
def lazyCapture (l : List Char) : Option (List Char) :=
  match l with
  | [] => none
  | c :: rest => (findAmpAmp rest).map (fun t => c :: rest.take t)

/-- Backtracking of the greedy `[.\s]+`: having consumed `j` delimiter
characters of `rest` (tried from the maximal run length downwards, each
giving the lazy capture a chance on what remains), as Go's leftmost-first
semantics prescribes. -/
def tryDelims : Nat → List Char → Option (List Char)
  | 0, _ => none
  | j + 1, rest =>
    match lazyCapture (rest.drop (j + 1)) with
    | some cap => some cap
    | none => tryDelims j rest

/-- Length of the maximal leading run of `[.\s]` delimiter characters. -/
def countDelims : List Char → Nat
  | [] => 0
  | c :: t => if isDelim c then countDelims t + 1 else 0

/-- The full regex search: scan start positions left to right (leftmost
match); at a position, the pattern token must match case-insensitively,
then `[.\s]+(.+?)&&` must match what follows.  Returns the capture group. -/
def findSectionAux (pat : List Char) : List Char → Option (List Char)
  | [] => none
  | l@(_ :: t) =>
    if startsWithCI pat l then
      match tryDelims (countDelims (l.drop pat.length)) (l.drop pat.length) with
      | some cap => some cap
      | none => findSectionAux pat t
    else findSectionAux pat t

/-- `strings.ToUpper(strings.ToLower(sectionName))` (main.go lines 109-111). -/
def upperName (l : List Char) : List Char := (l.map Char.toLower).map Char.toUpper

/-- `Product` struct (main.go lines 97-105). -/
structure Product where
  id : String := ""
  wmoCollectiveId : String := ""
  issuingOffice : String := ""
  issuanceTime : String := ""
  productCode : String := ""
  productName : String := ""
  productText : String := ""
deriving DecidableEq

/-- `GetDiscussionSection` (main.go lines 108-122): uppercase the requested
name, search `(?is)\.NAME[.\s]+(.+?)&&` in the product text; on a match,
sanitize the capture and prefix it, otherwise return the error. -/
def GetDiscussionSection (s : Product) (sectionName : String) : Except String String :=
  let nameU : List Char := upperName sectionName.data
  match findSectionAux ('.' :: nameU) s.productText.data with
  | some cap => .ok (formatDiscussionItem ⟨nameU⟩ ⟨sanitizeCore cap⟩)
  | none => .error ("No section of type " ++ (⟨nameU⟩ : String) ++ " found")

/-! ### Subscriber resolution and the batch loop (main.go lines 17-89)

The HTTP fetch is abstracted: `GetSubscribedSections` receives the
product that `client.GetAFD()` returned for the user's location, and the
batch runner receives a fetch oracle `String → Except String Product`. -/

/-- `User` struct (main.go lines 23-30). -/
structure User where
  id : Int := 0
  firstName : String := ""
  lastName : String := ""
  locationID : String := ""
  phone : String := ""
  subscriptions : List String := []
deriving DecidableEq

/-- The loop body of `GetSubscribedSections` (main.go lines 47-54) given the
fetched product: `sections := make([]string, len(s.Subscriptions))` builds a
slice already holding one empty string per subscription, and the loop then
`append`s each `GetDiscussionSection` result (the zero-value `""` when the
section is missing, in which case the error is only printed). -/
def GetSubscribedSections (s : User) (afd : Product) : List String :=
  List.replicate s.subscriptions.length "" ++
    s.subscriptions.map (fun subscription =>
      match GetDiscussionSection afd subscription with
      | .ok sec => sec
      | .error _ => "")

/-- Outcome of a run of `main`'s user loop: the SMS sends that were
attempted, as (recipient phone, body) pairs, and—when `log.Fatal` fired
inside `GetSubscribedSections` because the fetch failed—the error that
terminated the process. -/
structure BatchOutcome where
  deliveries : List (String × String)
  aborted : Option String
deriving DecidableEq

/-- `main`'s loop over users (main.go lines 79-88), with the per-location
fetch `client.GetAFD()` abstracted as `fetch`.  A fetch error hits
`log.Fatal` (main.go line 44): the process exits, so the failing user
produces no deliveries and no later user is processed.  Otherwise every
entry of `GetSubscribedSections` is sent to the user's phone (a Twilio
error is only printed and does not stop the loop). -/
def runBatch (fetch : String → Except String Product) : List User → BatchOutcome
  | [] => ⟨[], none⟩
  | user :: rest =>
    match fetch user.locationID with
    | .error e => ⟨[], some e⟩
    | .ok afd =>
      let sent := (GetSubscribedSections user afd).map (fun s => (user.phone, s))
      let out := runBatch fetch rest
      ⟨sent ++ out.deliveries, out.aborted⟩

/-- `GetAFD` (main.go lines 156-173), with the two HTTP calls abstracted:
`listing` is the result of `GetProducts("afd")` and `getProduct` fetches a
product's full detail by identifier. -/
def GetAFD (listing : Except String (List Product))
    (getProduct : String → Except String Product) : Except String Product :=
  match listing with
  | .error e => .error e
  | .ok products =>
    match products with
    | [] => .error "Couldn't find AFD"
    | p :: _ => getProduct p.id

/-! ### The pattern actually compiled (main.go line 112)

`regexp.MustCompile` panics when its argument does not parse.  The section
name is concatenated into the pattern unescaped, so the panic condition is
modelled by a (simplified, but sufficient for parenthesis errors) well-
formedness check of the concrete pattern string: parentheses must balance
outside character classes, classes must close, and no escape may dangle. -/

/-- The pattern string `(?is)\.` + NAME + `[.\s]+(.+?)&&` built at
main.go line 112 from the uppercased section name. -/
def builtPattern (nameU : List Char) : List Char :=
  "(?is)\\.".data ++ nameU ++ "[.\\s]+(.+?)&&".data

/-- Simplified model of Go `regexp` parse well-formedness (the conditions
`MustCompile` checks that string concatenation of a name can break):
balanced `(`/`)` outside classes, every `[` class closed, no dangling `\`. -/
def patBalanced : List Char → Nat → Bool → Bool
  | [], d, inClass => decide (d = 0) && !inClass
  | '\\' :: rest, d, inClass =>
    match rest with
    | [] => false
    | _ :: rest2 => patBalanced rest2 d inClass
  | '(' :: rest, d, inClass =>
    if inClass then patBalanced rest d inClass else patBalanced rest (d + 1) false
  | ')' :: rest, d, inClass =>
    if inClass then patBalanced rest d inClass
    else match d with
      | 0 => false
      | k + 1 => patBalanced rest k false
  | '[' :: rest, d, _ => patBalanced rest d true
  | ']' :: rest, d, _ => patBalanced rest d false
  | _ :: rest, d, inClass => patBalanced rest d inClass

/-- Go regexp metacharacters: a section name avoiding them is matched as a
literal token by the compiled pattern. -/
def isMeta (c : Char) : Bool :=
  c = '\\' || c = '.' || c = '+' || c = '*' || c = '?' || c = '(' || c = ')' ||
  c = '|' || c = '[' || c = ']' || c = '\x7b' || c = '\x7d' || c = '^' || c = '$'

/-- Section names for which the literal-token model of the compiled pattern
is exact: ASCII and free of regexp metacharacters. -/
def asciiMetaFree (s : String) : Bool :=
  s.data.all (fun c => c.val < 128 && !isMeta c)

/-! ### The normalizer as the specification words it

Independent definitions, written from the specification's description of
the four steps rather than from the code, to compare against
`sanitizeString`. -/

/-- Spec step 1, written as the spec words it: trim leading and trailing
whitespace (including Unicode space separators). -/
def specTrim (l : List Char) : List Char :=
  let t := l.drop ((l.takeWhile goWhite).length)
  t.take (t.length - (t.reverse.takeWhile goWhite).length)

/-- Is there a character here, and is it distinct from a newline? -/
def notNL : Option Char → Bool
  | some p => p ≠ '\n'
  | none => false

/-- Helper of `specJoin`: `prev` is the previous character of the original
string (`none` at the start). -/
def specJoinAll (prev : Option Char) : List Char → List Char
  | [] => []
  | c :: rest =>
    if c = '\n' && notNL prev && notNL rest.head? then specJoinAll (some '\n') rest
    else c :: specJoinAll (some c) rest

/-- Spec step 2, written as the claim words it: every single newline that
sits between two non-newline characters is removed, the two surrounding
characters being preserved. -/
def specJoin (l : List Char) : List Char := specJoinAll none l

/-- Helper of `specDespace`: `prev` is the previous character of the
original string.  A character belongs to a run of two or more consecutive
spaces exactly when it is a space and one of its original neighbors is a
space. -/
def specDespaceAux (prev : Option Char) : List Char → List Char
  | [] => []
  | c :: rest =>
    if c = ' ' && (decide (prev = some ' ') || decide (rest.head? = some ' '))
    then specDespaceAux (some c) rest
    else c :: specDespaceAux (some c) rest

/-- Spec step 3, written as the spec words it: every run of two or more
consecutive space characters is deleted entirely (a character is dropped
exactly when it is a space adjacent to another space). -/
def specDespace (l : List Char) : List Char := specDespaceAux none l

/-- Spec step 4, written as the spec words it: remove every carriage-return
and tab character. -/
def specStrip : List Char → List Char
  | [] => []
  | c :: rest => if c = '\t' || c = '\r' then specStrip rest else c :: specStrip rest

/-- The normalizer exactly as claim C4 words it: the four spec steps in
order, with step 2 removing each newline flanked by non-newlines. -/
def claimedSanitize (l : List Char) : List Char :=
  specStrip (specDespace (specJoin (specTrim l)))

/-- No two consecutive space characters occur in the list. -/
def noTwoSpaces : List Char → Bool
  | a :: b :: t => !(a = ' ' && b = ' ') && noTwoSpaces (b :: t)
  | _ => true

/-! ### Concrete fixtures for the counterexamples and witnesses -/

/-- A product whose text carries one well-formed SYNOPSIS section. -/
def afdSample : Product :=
  { id := "AFD-1", productText := ".SYNOPSIS...ok&&" }

/-- A subscriber at location LOC1 subscribed to the synopsis section. -/
def userOne : User :=
  { id := 1, firstName := "Ann", lastName := "Ames", locationID := "LOC1",
    phone := "+15550001", subscriptions := ["synopsis"] }

/-- A subscriber at location LOC2 subscribed to the synopsis section. -/
def userTwo : User :=
  { id := 2, firstName := "Ben", lastName := "Bold", locationID := "LOC2",
    phone := "+15550002", subscriptions := ["synopsis"] }

/-- A fetch oracle simulating a non-2xx response for LOC1 only. -/
def fetchFailsLocOne : String → Except String Product := fun loc =>
  if loc = "LOC1" then .error "404 page not found" else .ok afdSample

/-! ### Specification predicates about the matcher -/

/-- One start position of the scan can complete a match: the pattern token
matches here (case-insensitively) and `[.\s]+(.+?)&&` succeeds on the
remainder. -/
def posGood (pat l : List Char) (p : Nat) : Prop :=
  startsWithCI pat (l.drop p) = true ∧
  (tryDelims (countDelims ((l.drop p).drop pat.length)) ((l.drop p).drop pat.length)).isSome
    = true

/-- The success condition of the compiled pattern on a text, stated without
reference to the scan: some position starts the case-insensitive token
`.NAME`, at least one `[.\s]` delimiter follows the token, and an
occurrence of `&&` begins at least two characters past the token. -/
def sectionMatchable (nameU text : List Char) : Prop :=
  ∃ p, startsWithCI ('.' :: nameU) (text.drop p) = true ∧
    1 ≤ countDelims ((text.drop p).drop (nameU.length + 1)) ∧
    ∃ i, 2 ≤ i ∧ ampAmp (((text.drop p).drop (nameU.length + 1)).drop i) = true

/-! ## Lemmas about the matcher -/

theorem foldEq_refl (c : Char) : foldEq c c = true := by
  simp [foldEq]

theorem startsWithCI_append_self (l r : List Char) : startsWithCI l (l ++ r) = true := by
  induction l with
  | nil => simp [startsWithCI]
  | cons c t ih => simp [startsWithCI, foldEq_refl, ih]

theorem findAmpAmp_some {l : List Char} {i : Nat} (h : findAmpAmp l = some i) :
    ampAmp (l.drop i) = true := by
  induction l generalizing i with
  | nil => simp [findAmpAmp] at h
  | cons c t ih =>
    rw [findAmpAmp] at h
    by_cases hc : ampAmp (c :: t) = true
    · simp [hc] at h
      subst h
      simpa using hc
    · simp [hc, Option.map_eq_some'] at h
      obtain ⟨j, hj, hji⟩ := h
      subst hji
      simpa [List.drop_succ_cons] using ih hj

theorem findAmpAmp_isSome_of {l : List Char} {i : Nat} (h : ampAmp (l.drop i) = true) :
    (findAmpAmp l).isSome = true := by
  induction l generalizing i with
  | nil => simp [ampAmp] at h
  | cons c t ih =>
    rw [findAmpAmp]
    by_cases hc : ampAmp (c :: t) = true
    · simp [hc]
    · simp [hc]
      cases i with
      | zero => exact absurd (by simpa using h) hc
      | succ j => exact ih (i := j) (by simpa [List.drop_succ_cons] using h)

theorem lazyCapture_isSome {l : List Char} {i : Nat} (h2 : 1 ≤ i)
    (h : ampAmp (l.drop i) = true) : (lazyCapture l).isSome = true := by
  cases l with
  | nil => simp [ampAmp] at h
  | cons c rest =>
    obtain ⟨j, rfl⟩ : ∃ j, i = j + 1 := ⟨i - 1, by omega⟩
    rw [List.drop_succ_cons] at h
    simp only [lazyCapture]
    have := findAmpAmp_isSome_of h
    cases hf : findAmpAmp rest with
    | none => rw [hf] at this; simp at this
    | some t0 => simp [hf]

theorem tryDelims_succ_isSome {rest : List Char} {i : Nat} (h2 : 2 ≤ i)
    (h : ampAmp (rest.drop i) = true) : ∀ j, (tryDelims (j + 1) rest).isSome = true := by
  intro j
  induction j with
  | zero =>
    rw [tryDelims]
    cases hl : lazyCapture (rest.drop 1) with
    | some cap => simp
    | none =>
      exfalso
      have hs : (lazyCapture (rest.drop 1)).isSome = true := by
        apply lazyCapture_isSome (i := i - 1) (by omega)
        have hi : 1 + (i - 1) = i := by omega
        rw [List.drop_drop, hi]
        exact h
      rw [hl] at hs
      simp at hs
  | succ k ih =>
    rw [tryDelims]
    cases hl : lazyCapture (rest.drop (k + 1 + 1)) with
    | some cap => simp
    | none => simpa using ih

theorem tryDelims_isSome_elim {rest : List Char} {j : Nat}
    (h : (tryDelims j rest).isSome = true) :
    ∃ i, 2 ≤ i ∧ ampAmp (rest.drop i) = true := by
  induction j with
  | zero => simp [tryDelims] at h
  | succ k ih =>
    rw [tryDelims] at h
    cases hl : lazyCapture (rest.drop (k + 1)) with
    | none =>
      rw [hl] at h
      exact ih (by simpa using h)
    | some cap =>
      cases hd : rest.drop (k + 1) with
      | nil => rw [hd] at hl; simp [lazyCapture] at hl
      | cons c r =>
        rw [hd] at hl
        simp only [lazyCapture, Option.map_eq_some'] at hl
        obtain ⟨t0, ht0, _⟩ := hl
        have hr : r = rest.drop (k + 1 + 1) := by
          have : rest.drop (k + 1 + 1) = (rest.drop (k + 1)).drop 1 := by
            rw [List.drop_drop]
          rw [this, hd]
          simp
        have hamp := findAmpAmp_some ht0
        rw [hr, List.drop_drop] at hamp
        exact ⟨k + 1 + 1 + t0, by omega, hamp⟩

theorem tryDelims_isSome_iff (rest : List Char) (j : Nat) :
    (tryDelims j rest).isSome = true ↔
      (1 ≤ j ∧ ∃ i, 2 ≤ i ∧ ampAmp (rest.drop i) = true) := by
  constructor
  · intro h
    refine ⟨?_, tryDelims_isSome_elim h⟩
    cases j with
    | zero => simp [tryDelims] at h
    | succ k => omega
  · rintro ⟨hj, i, h2, h⟩
    obtain ⟨k, rfl⟩ : ∃ k, j = k + 1 := ⟨j - 1, by omega⟩
    exact tryDelims_succ_isSome h2 h k

theorem findSectionAux_isSome_iff (pat : List Char) :
    ∀ l, (findSectionAux pat l).isSome = true ↔ ∃ p, posGood pat l p := by
  intro l
  induction l with
  | nil =>
    simp only [findSectionAux, Option.isSome_none]
    constructor
    · intro h; simp at h
    · rintro ⟨p, _, h2⟩
      rw [List.drop_nil, List.drop_nil] at h2
      simp [countDelims, tryDelims] at h2
  | cons c t ih =>
    rw [findSectionAux]
    by_cases hs : startsWithCI pat (c :: t) = true
    · rw [if_pos hs]
      cases htry :
        tryDelims (countDelims ((c :: t).drop pat.length)) ((c :: t).drop pat.length) with
      | some cap =>
        simp only [htry, Option.isSome_some, true_iff]
        exact ⟨0, by simp [posGood, hs, htry]⟩
      | none =>
        simp only [htry]
        rw [ih]
        constructor
        · rintro ⟨p, hp⟩
          exact ⟨p + 1, by simpa [posGood, List.drop_succ_cons] using hp⟩
        · rintro ⟨p, hp⟩
          cases p with
          | zero =>
            exfalso
            rw [posGood] at hp
            rw [List.drop_zero] at hp
            rw [htry] at hp
            simp at hp
          | succ q => exact ⟨q, by simpa [posGood, List.drop_succ_cons] using hp⟩
    · rw [if_neg hs]
      rw [ih]
      constructor
      · rintro ⟨p, hp⟩
        exact ⟨p + 1, by simpa [posGood, List.drop_succ_cons] using hp⟩
      · rintro ⟨p, hp⟩
        cases p with
        | zero =>
          exfalso
          rw [posGood, List.drop_zero] at hp
          exact hs hp.1
        | succ q => exact ⟨q, by simpa [posGood, List.drop_succ_cons] using hp⟩

theorem sectionMatchable_iff_scan (nameU l : List Char) :
    sectionMatchable nameU l ↔ (findSectionAux ('.' :: nameU) l).isSome = true := by
  rw [findSectionAux_isSome_iff]
  have hlen : ('.' :: nameU).length = nameU.length + 1 := by simp
  constructor
  · rintro ⟨p, h1, h2, i, hi⟩
    refine ⟨p, h1, ?_⟩
    rw [hlen]
    exact (tryDelims_isSome_iff _ _).2 ⟨h2, i, hi⟩
  · rintro ⟨p, h1, h2⟩
    rw [hlen] at h2
    obtain ⟨hc, i, hi⟩ := (tryDelims_isSome_iff _ _).1 h2
    exact ⟨p, h1, hc, i, hi⟩

theorem drop_three_cons (n : Nat) (x y z : Char) (l : List Char) :
    (x :: y :: z :: l).drop (n + 3) = l.drop n := by
  have h3 : n + 3 = n + 2 + 1 := rfl
  have h2 : n + 2 = n + 1 + 1 := rfl
  rw [h3, List.drop_succ_cons, h2, List.drop_succ_cons, List.drop_succ_cons]

theorem findSectionAux_cons_pos {pat : List Char} {c : Char} {t cap : List Char}
    (hs : startsWithCI pat (c :: t) = true)
    (ht : tryDelims (countDelims ((c :: t).drop pat.length)) ((c :: t).drop pat.length)
        = some cap) :
    findSectionAux pat (c :: t) = some cap := by
  rw [findSectionAux, if_pos hs, ht]

theorem findAmpAmp_of_no_amp (bl ts : List Char) (h : ∀ x ∈ bl, x ≠ '&') :
    findAmpAmp (bl ++ '&' :: '&' :: ts) = some bl.length := by
  induction bl with
  | nil =>
    rw [List.nil_append, findAmpAmp]
    simp [ampAmp]
  | cons x bl' ih =>
    rw [List.cons_append, findAmpAmp]
    have hx : x ≠ '&' := h x (by simp)
    have hamp : ampAmp (x :: (bl' ++ '&' :: '&' :: ts)) = false := by
      cases hm : bl' ++ '&' :: '&' :: ts with
      | nil => simp at hm
      | cons m0 mrest => simp [ampAmp, hx]
    rw [hamp]
    simp only [Bool.false_eq_true, if_false]
    rw [ih (fun u hu => h u (by simp [hu]))]
    simp

theorem findSectionAux_synopsis_first (b' z : List Char) (b0 : Char)
    (hhead : isDelim b0 = false) (hamp0 : b0 ≠ '&') (hamp : ∀ x ∈ b', x ≠ '&') :
    findSectionAux ".SYNOPSIS".data (".SYNOPSIS...".data ++ ((b0 :: b') ++ ('&' :: '&' :: z)))
      = some (b0 :: b') := by
  have hcons : ".SYNOPSIS...".data ++ ((b0 :: b') ++ ('&' :: '&' :: z))
      = '.' :: ("SYNOPSIS...".data ++ ((b0 :: b') ++ ('&' :: '&' :: z))) := rfl
  rw [hcons]
  apply findSectionAux_cons_pos
  · rw [← hcons]
    rw [show ".SYNOPSIS...".data ++ ((b0 :: b') ++ ('&' :: '&' :: z))
        = ".SYNOPSIS".data ++ ("...".data ++ ((b0 :: b') ++ ('&' :: '&' :: z))) from rfl]
    exact startsWithCI_append_self _ _
  · rw [show ('.' :: ("SYNOPSIS...".data ++ ((b0 :: b') ++ ('&' :: '&' :: z)))).drop
          (".SYNOPSIS".data.length)
        = "...".data ++ ((b0 :: b') ++ ('&' :: '&' :: z)) from rfl]
    rw [show "...".data ++ ((b0 :: b') ++ ('&' :: '&' :: z))
        = '.' :: '.' :: '.' :: (b0 :: (b' ++ '&' :: '&' :: z)) from rfl]
    have hcd : countDelims ('.' :: '.' :: '.' :: (b0 :: (b' ++ '&' :: '&' :: z))) = 3 := by
      have h := hhead
      simp only [isDelim] at h
      simp only [Bool.or_eq_false_iff, decide_eq_false_iff_not] at h
      simp [countDelims, isDelim, h.1, h.2]
    rw [hcd]
    rw [show (3 : Nat) = 2 + 1 from rfl, tryDelims]
    rw [show ('.' :: '.' :: '.' :: (b0 :: (b' ++ '&' :: '&' :: z))).drop (2 + 1)
        = b0 :: (b' ++ '&' :: '&' :: z) from rfl]
    rw [show lazyCapture (b0 :: (b' ++ '&' :: '&' :: z))
        = (findAmpAmp (b' ++ '&' :: '&' :: z)).map
            (fun t => b0 :: (b' ++ '&' :: '&' :: z).take t) from rfl]
    rw [findAmpAmp_of_no_amp b' z hamp]
    simp [List.take_left]

/-- Claim C1: for every raw product text containing `.SYNOPSIS...<body>&&`,
`GetDiscussionSection(text, "synopsis")` succeeds, and it returns the string
`"SYNOPSIS:\n\n"` followed by `sanitizeString` applied to the captured body
text (the regex capture group of the match). -/
theorem synopsis_extraction_succeeds (a b c : String) :
    ∃ body : List Char,
      findSectionAux ('.' :: upperName "synopsis".data)
          (a ++ ".SYNOPSIS..." ++ b ++ "&&" ++ c).data = some body ∧
      GetDiscussionSection { productText := a ++ ".SYNOPSIS..." ++ b ++ "&&" ++ c } "synopsis"
        = .ok ("SYNOPSIS:\n\n" ++ sanitizeString ⟨body⟩) := by
  have hpat : ('.' :: upperName "synopsis".data) = ".SYNOPSIS".data := by decide
  have hdata : (a ++ ".SYNOPSIS..." ++ b ++ "&&" ++ c).data
      = a.data ++ (".SYNOPSIS".data ++ ("...".data ++ (b.data ++ ('&' :: '&' :: c.data)))) := by
    simp only [String.data_append]
    simp [List.append_assoc, List.cons_append]
  have hmatch : sectionMatchable (upperName "synopsis".data)
      (a ++ ".SYNOPSIS..." ++ b ++ "&&" ++ c).data := by
    rw [hdata]
    refine ⟨a.data.length, ?_, ?_, ?_⟩
    · rw [List.drop_left, hpat]
      exact startsWithCI_append_self _ _
    · rw [List.drop_left,
        show (upperName "synopsis".data).length + 1 = (".SYNOPSIS".data).length from rfl,
        List.drop_left,
        show "...".data ++ (b.data ++ ('&' :: '&' :: c.data))
          = '.' :: '.' :: '.' :: (b.data ++ ('&' :: '&' :: c.data)) from rfl]
      simp [countDelims, isDelim]
    · refine ⟨b.data.length + 3, by omega, ?_⟩
      rw [List.drop_left,
        show (upperName "synopsis".data).length + 1 = (".SYNOPSIS".data).length from rfl,
        List.drop_left,
        show "...".data ++ (b.data ++ ('&' :: '&' :: c.data))
          = '.' :: '.' :: '.' :: (b.data ++ ('&' :: '&' :: c.data)) from rfl,
        drop_three_cons, List.drop_left]
      simp [ampAmp]
  rw [sectionMatchable_iff_scan] at hmatch
  obtain ⟨body, hbody⟩ := Option.isSome_iff_exists.1 hmatch
  refine ⟨body, hbody, ?_⟩
  have hget : GetDiscussionSection { productText := a ++ ".SYNOPSIS..." ++ b ++ "&&" ++ c }
      "synopsis" = .ok (formatDiscussionItem ⟨upperName "synopsis".data⟩ ⟨sanitizeCore body⟩) := by
    simp only [GetDiscussionSection, hbody]
  rw [hget]
  have hfmt : formatDiscussionItem ⟨upperName "synopsis".data⟩ ⟨sanitizeCore body⟩
      = "SYNOPSIS:\n\n" ++ sanitizeString ⟨body⟩ := by
    simp only [formatDiscussionItem, sanitizeString]
    rw [show (⟨upperName "synopsis".data⟩ : String).data.map Char.toUpper
        = "SYNOPSIS".data from by decide]
    rw [show ((⟨"SYNOPSIS".data⟩ : String) ++ ":\n\n") = "SYNOPSIS:\n\n" from by decide]
  rw [hfmt]

/-- Claim C8: when the product text contains two sections with the same
requested name, `GetDiscussionSection` returns only the first one in
document order: the result is built from the first section's body `b` and
is independent of the second section's body `d`. -/
theorem first_section_wins (b c1 d c2 : String) (b0 : Char) (b' : List Char)
    (hdata : b.data = b0 :: b') (hhead : isDelim b0 = false)
    (hamp : ∀ x ∈ b.data, x ≠ '&') :
    GetDiscussionSection
        { productText :=
            ".SYNOPSIS..." ++ b ++ "&&" ++ c1 ++ ".SYNOPSIS..." ++ d ++ "&&" ++ c2 }
        "synopsis"
      = .ok ("SYNOPSIS:\n\n" ++ sanitizeString b) := by
  have htext :
      (".SYNOPSIS..." ++ b ++ "&&" ++ c1 ++ ".SYNOPSIS..." ++ d ++ "&&" ++ c2).data
        = ".SYNOPSIS...".data ++ (b.data ++ ('&' :: '&' ::
            (c1.data ++ (".SYNOPSIS...".data ++ (d.data ++ ('&' :: '&' :: c2.data)))))) := by
    simp only [String.data_append]
    simp [List.append_assoc, List.cons_append]
  have hb0 : b0 ≠ '&' := hamp b0 (by rw [hdata]; simp)
  have hb' : ∀ x ∈ b', x ≠ '&' := fun x hx => hamp x (by rw [hdata]; simp [hx])
  have hfind : findSectionAux ('.' :: upperName "synopsis".data)
      (".SYNOPSIS..." ++ b ++ "&&" ++ c1 ++ ".SYNOPSIS..." ++ d ++ "&&" ++ c2).data
        = some b.data := by
    rw [show ('.' :: upperName "synopsis".data) = ".SYNOPSIS".data from by decide, htext, hdata]
    exact findSectionAux_synopsis_first b' _ b0 hhead hb0 hb'
  have hget : GetDiscussionSection
      { productText := ".SYNOPSIS..." ++ b ++ "&&" ++ c1 ++ ".SYNOPSIS..." ++ d ++ "&&" ++ c2 }
      "synopsis"
        = .ok (formatDiscussionItem ⟨upperName "synopsis".data⟩ ⟨sanitizeCore b.data⟩) := by
    simp only [GetDiscussionSection, hfind]
  rw [hget]
  have hfmt : formatDiscussionItem ⟨upperName "synopsis".data⟩ ⟨sanitizeCore b.data⟩
      = "SYNOPSIS:\n\n" ++ sanitizeString b := by
    simp only [formatDiscussionItem, sanitizeString]
    rw [show (⟨upperName "synopsis".data⟩ : String).data.map Char.toUpper
        = "SYNOPSIS".data from by decide]
    rw [show ((⟨"SYNOPSIS".data⟩ : String) ++ ":\n\n") = "SYNOPSIS:\n\n" from by decide]
  rw [hfmt]

/-- Witness for `first_section_wins` at a concrete two-section product. -/
theorem first_section_wins_witness :
    GetDiscussionSection
        { productText :=
            ".SYNOPSIS..." ++ "Quiet weather." ++ "&&" ++ " filler " ++ ".SYNOPSIS..."
              ++ "Second body." ++ "&&" ++ " end" }
        "synopsis"
      = .ok ("SYNOPSIS:\n\n" ++ sanitizeString "Quiet weather.") :=
  first_section_wins "Quiet weather." " filler " "Second body." " end" 'Q'
    "uiet weather.".data (by decide) (by decide) (by decide)

/-- Claim C3 (amended): for ASCII metacharacter-free section names,
`GetDiscussionSection` succeeds exactly when some position of the text
starts the case-insensitive token `.NAME` followed immediately by at least
one delimiter (`.` or whitespace) with an occurrence of `&&` beginning at
least two characters past the token; in every other case it fails with the
error naming the requested (uppercased) section. -/
theorem getDiscussionSection_cases (prod : Product) (name : String)
    (hname : asciiMetaFree name = true) :
    ((∃ t, GetDiscussionSection prod name = .ok t) ↔
      sectionMatchable (upperName name.data) prod.productText.data) ∧
    (¬ sectionMatchable (upperName name.data) prod.productText.data →
      GetDiscussionSection prod name =
        .error ("No section of type " ++ (⟨upperName name.data⟩ : String) ++ " found")) := by
  rw [sectionMatchable_iff_scan]
  cases hf : findSectionAux ('.' :: upperName name.data) prod.productText.data with
  | some cap =>
    constructor
    · constructor
      · intro _
        rfl
      · intro _
        exact ⟨formatDiscussionItem ⟨upperName name.data⟩ ⟨sanitizeCore cap⟩, by
          simp only [GetDiscussionSection, hf]⟩
    · intro hn
      exact absurd rfl hn
  | none =>
    constructor
    · constructor
      · rintro ⟨t, ht⟩
        simp only [GetDiscussionSection, hf] at ht
        exact Except.noConfusion ht
      · intro hsome
        simp at hsome
    · intro _
      simp only [GetDiscussionSection, hf]

/-- Witness for `getDiscussionSection_cases` at a concrete product. -/
theorem getDiscussionSection_cases_witness :
    ((∃ t, GetDiscussionSection afdSample "synopsis" = .ok t) ↔
      sectionMatchable (upperName "synopsis".data) afdSample.productText.data) ∧
    (¬ sectionMatchable (upperName "synopsis".data) afdSample.productText.data →
      GetDiscussionSection afdSample "synopsis" =
        .error ("No section of type " ++ (⟨upperName "synopsis".data⟩ : String) ++ " found")) :=
  getDiscussionSection_cases afdSample "synopsis" (by decide)

/-- Claim C3 counterexample: in `".SYNOPSIS &&"` the requested header
`.SYNOPSIS` is present (with a whitespace delimiter, the form the
specification's glossary gives for headers) and the `&&` terminator follows
it, yet the call fails — the lazy capture group needs a character and the
single delimiter cannot supply one. -/
theorem header_and_terminator_yet_error :
    ((".SYNOPSIS &&" : String) = ".SYNOPSIS" ++ " " ++ "&&") ∧
    GetDiscussionSection { productText := ".SYNOPSIS &&" } "synopsis"
      = .error "No section of type SYNOPSIS found" :=
  ⟨by decide, by decide⟩

/-- Claim C10 (amended): on every successful call the returned text is the
requested (uppercased) name, `":\n\n"`, then a body containing no
carriage-return and no tab characters. -/
theorem section_body_no_tabs_crs (prod : Product) (name t : String)
    (h : GetDiscussionSection prod name = .ok t) :
    ∃ body : List Char,
      t = formatDiscussionItem ⟨upperName name.data⟩ ⟨body⟩ ∧
      ∀ ch ∈ body, ch ≠ '\t' ∧ ch ≠ '\r' := by
  simp only [GetDiscussionSection] at h
  cases hf : findSectionAux ('.' :: upperName name.data) prod.productText.data with
  | none =>
    rw [hf] at h
    exact absurd h (by simp)
  | some cap =>
    rw [hf] at h
    have ht : t = formatDiscussionItem ⟨upperName name.data⟩ ⟨sanitizeCore cap⟩ := by
      cases h
      rfl
    refine ⟨sanitizeCore cap, ht, ?_⟩
    intro ch hch
    have hmem : ch ∈ (despace (joinNewlines (trimGo cap))).filter
        (fun c => !(c = '\t' || c = '\r')) := hch
    have hp := List.of_mem_filter hmem
    simp at hp
    exact ⟨hp.1, hp.2⟩

/-- Witness for `section_body_no_tabs_crs` at a concrete product. -/
theorem section_body_no_tabs_crs_witness :
    ∃ body : List Char,
      ("SYNOPSIS:\n\nok" : String) = formatDiscussionItem ⟨upperName "synopsis".data⟩ ⟨body⟩ ∧
      ∀ ch ∈ body, ch ≠ '\t' ∧ ch ≠ '\r' :=
  section_body_no_tabs_crs afdSample "synopsis" "SYNOPSIS:\n\nok" (by decide)

/-- Claim C10 counterexample: the returned body can contain the terminator
sequence `&&`: when the delimiter run is immediately followed by `&&`, the
lazy capture starts at that `&&` and runs to the next one. -/
theorem section_body_contains_terminator :
    GetDiscussionSection { productText := ".SYNOPSIS...&&xyz&&" } "synopsis"
      = .ok ("SYNOPSIS:\n\n" ++ "&&xyz") ∧
    findAmpAmp "&&xyz".data = some 0 :=
  ⟨by decide, by decide⟩

/-- Claim C2 (code-bug evaluation): for a subscriber with one subscription
whose section extraction succeeds, the resolver returns two entries — the
leading empty string allocated by `make([]string, 1)` plus the appended
section — not one entry per subscription. -/
theorem subscribedSections_doubled :
    GetSubscribedSections userOne afdSample = ["", "SYNOPSIS:\n\nok"] ∧
    (GetSubscribedSections userOne afdSample).length = 2 ∧
    userOne.subscriptions.length = 1 :=
  ⟨by decide, by decide, by decide⟩

/-- Claim C6 counterexample: with the fetch failing for the first
subscriber's location, the whole run aborts with zero deliveries — the
second subscriber is never processed — although the same second subscriber
processed alone would have produced deliveries. -/
theorem batch_stops_after_fetch_failure :
    runBatch fetchFailsLocOne [userOne, userTwo]
      = { deliveries := [], aborted := some "404 page not found" } ∧
    runBatch fetchFailsLocOne [userTwo]
      = { deliveries := [("+15550002", ""), ("+15550002", "SYNOPSIS:\n\nok")],
          aborted := none } :=
  ⟨by decide, by decide⟩

/-- Claim C6 (amended): when the fetch for a subscriber's location fails,
that subscriber yields the fatal error and zero deliveries, and the entire
run terminates — no subsequent subscriber in the batch is processed. -/
theorem fetch_failure_aborts_run (fetch : String → Except String Product)
    (u : User) (rest : List User) (e : String)
    (h : fetch u.locationID = .error e) :
    runBatch fetch (u :: rest) = { deliveries := [], aborted := some e } := by
  rw [runBatch, h]

/-- Witness for `fetch_failure_aborts_run` at a concrete batch. -/
theorem fetch_failure_aborts_run_witness :
    runBatch fetchFailsLocOne (userOne :: [userTwo])
      = { deliveries := [], aborted := some "404 page not found" } :=
  fetch_failure_aborts_run fetchFailsLocOne userOne [userTwo] "404 page not found" (by decide)

/-- Claim C7 (code-bug evaluation): the requested section name is
interpolated into the pattern unescaped (main.go line 112), so a name
containing a regexp metacharacter produces an invalid pattern —
`regexp.MustCompile` panics and the process aborts — while a plain name
compiles. -/
theorem unescaped_name_breaks_pattern :
    patBalanced (builtPattern (upperName "(".data)) 0 false = false ∧
    patBalanced (builtPattern (upperName "synopsis".data)) 0 false = true ∧
    asciiMetaFree "(" = false :=
  ⟨by decide, by decide, by decide⟩

/-- Claim C9: `GetAFD` fails with the not-found error exactly on an empty
product listing, and otherwise returns the full detail fetched for the
identifier of the first entry of the listing. -/
theorem getAFD_first_entry (g : String → Except String Product) (p : Product)
    (rest : List Product) :
    GetAFD (.ok []) g = .error "Couldn't find AFD" ∧
    GetAFD (.ok (p :: rest)) g = g p.id :=
  ⟨rfl, rfl⟩

/-- Claim C5 counterexample: `sanitizeString` is not idempotent — the
newline-joining pass is non-overlapping, so `"a\nb\nc"` keeps its second
newline on the first pass and loses it on the second. -/
theorem sanitize_not_idempotent :
    sanitizeString "a\nb\nc" = "ab\nc" ∧
    sanitizeString (sanitizeString "a\nb\nc") = "abc" ∧
    sanitizeString (sanitizeString "a\nb\nc") ≠ sanitizeString "a\nb\nc" :=
  ⟨by decide, by decide, by decide⟩

/-- Claim C4 counterexample: the code's step 2 is a non-overlapping scan,
not a deletion of every newline flanked by non-newlines: on `"a\nb\nc"` the
pipeline as the claim words it yields `"abc"` while `sanitizeString` yields
`"ab\nc"`. -/
theorem sanitize_differs_from_claimed_pipeline :
    sanitizeString "a\nb\nc" = "ab\nc" ∧
    claimedSanitize "a\nb\nc".data = "abc".data ∧
    (sanitizeString "a\nb\nc").data ≠ claimedSanitize "a\nb\nc".data :=
  ⟨by decide, by decide, by decide⟩

/-! ## The normalizer equals the specification's pipeline (claim C4) -/

theorem specStrip_eq (l : List Char) : specStrip l = stripTabsCRs l := by
  induction l with
  | nil => rfl
  | cons c rest ih =>
    rw [specStrip, stripTabsCRs, List.filter_cons]
    rw [stripTabsCRs] at ih
    by_cases hc : (c = '\t' || c = '\r') = true
    · simp only [hc, if_pos, Bool.not_true, if_false]
      rw [ih]
      simp
    · simp only [Bool.not_eq_true] at hc
      simp only [hc, Bool.not_false, if_true, if_false]
      rw [ih]
      simp

theorem despaceAux_ge_two (l : List Char) :
    ∀ n m, 2 ≤ n → 2 ≤ m → despaceAux n l = despaceAux m l := by
  induction l with
  | nil =>
    intro n m hn hm
    rw [despaceAux, despaceAux, if_neg (by omega), if_neg (by omega)]
  | cons c rest ih =>
    intro n m hn hm
    rw [despaceAux, despaceAux]
    by_cases hc : c = ' '
    · rw [if_pos hc, if_pos hc]
      exact ih (n + 1) (m + 1) (by omega) (by omega)
    · rw [if_neg hc, if_neg hc, if_neg (by omega), if_neg (by omega)]

theorem despace_spec_equiv (l : List Char) :
    (∀ p : Option Char, p ≠ some ' ' → specDespaceAux p l = despaceAux 0 l) ∧
    (∀ n : Nat, 2 ≤ n → specDespaceAux (some ' ') l = despaceAux n l) := by
  induction l with
  | nil =>
    constructor
    · intro p hp
      rfl
    · intro n hn
      rw [specDespaceAux, despaceAux, if_neg (by omega)]
  | cons c rest ih =>
    obtain ⟨ihA, ihB⟩ := ih
    constructor
    · intro p hp
      by_cases hc : c = ' '
      · subst hc
        have hp' : decide (p = some ' ') = false := by simp [hp]
        cases rest with
        | nil =>
          rw [specDespaceAux, despaceAux]
          simp [hp', specDespaceAux, despaceAux]
        | cons r rs =>
          by_cases hr : r = ' '
          · subst hr
            rw [specDespaceAux]
            simp only [hp', List.head?_cons, Bool.false_or]
            rw [if_pos (by simp)]
            have h1 : specDespaceAux (some ' ') (' ' :: rs) = despaceAux 2 (' ' :: rs) :=
              ihB 2 (by omega)
            have h2 : despaceAux 2 (' ' :: rs) = despaceAux 3 rs := by
              rw [despaceAux, if_pos rfl]
            have h3 : despaceAux 0 (' ' :: ' ' :: rs) = despaceAux 2 rs := by
              rw [despaceAux, if_pos rfl, despaceAux, if_pos rfl]
            rw [h1, h2, h3]
            exact despaceAux_ge_two rs 3 2 (by omega) (by omega)
          · rw [specDespaceAux]
            simp only [hp', List.head?_cons, Bool.false_or]
            rw [if_neg (by simp [hr])]
            have hstep : specDespaceAux (some ' ') (r :: rs) = r :: specDespaceAux (some r) rs := by
              rw [specDespaceAux, if_neg (by simp [hr])]
            have hstep2 : specDespaceAux p (r :: rs) = r :: specDespaceAux (some r) rs := by
              rw [specDespaceAux, if_neg (by simp [hr])]
            have hA := ihA p hp
            rw [hstep2] at hA
            have hcode : despaceAux 0 (r :: rs) = r :: despaceAux 0 rs := by
              rw [despaceAux, if_neg hr]
              simp
            rw [hcode] at hA
            have htail : specDespaceAux (some r) rs = despaceAux 0 rs :=
              (List.cons.injEq r _ r _ ▸ hA : _ ∧ _).2
            rw [hstep, htail]
            rw [despaceAux, if_pos rfl, despaceAux, if_neg hr]
            simp
      · rw [specDespaceAux, if_neg (by simp [hc]), despaceAux, if_neg hc]
        have htail : specDespaceAux (some c) rest = despaceAux 0 rest :=
          ihA (some c) (by simp [hc])
        rw [htail]
        simp
    · intro n hn
      by_cases hc : c = ' '
      · subst hc
        rw [specDespaceAux]
        rw [if_pos (by simp)]
        rw [despaceAux, if_pos rfl]
        exact ihB (n + 1) (by omega)
      · rw [specDespaceAux, if_neg (by simp [hc]), despaceAux, if_neg hc, if_neg (by omega)]
        have htail : specDespaceAux (some c) rest = despaceAux 0 rest :=
          ihA (some c) (by simp [hc])
        rw [htail]
        simp

theorem specDespace_eq (l : List Char) : specDespace l = despace l :=
  (despace_spec_equiv l).1 none (by simp)

theorem dropWhile_eq_drop_length (p : Char → Bool) (l : List Char) :
    l.dropWhile p = l.drop (l.takeWhile p).length := by
  induction l with
  | nil => rfl
  | cons c rest ih =>
    by_cases hc : p c = true
    · rw [List.dropWhile_cons_of_pos hc, List.takeWhile_cons_of_pos hc]
      simpa using ih
    · rw [List.dropWhile_cons_of_neg (by simp [hc]), List.takeWhile_cons_of_neg (by simp [hc])]
      simp

theorem specTrim_eq (l : List Char) : specTrim l = trimGo l := by
  simp only [specTrim, trimGo]
  rw [← dropWhile_eq_drop_length]
  rw [dropWhile_eq_drop_length goWhite (l.dropWhile goWhite).reverse]
  rw [List.drop_reverse, List.reverse_reverse]

/-- Claim C4 (amended): `sanitizeString` applies exactly the four steps in
order — the trim, the newline join, the double-space-run deletion, and the
tab/carriage-return removal — with step 2 being the code's single
left-to-right non-overlapping replacement pass (`joinNewlines`), under
which a newline whose left flank was consumed by the previous replacement
survives the pass. -/
theorem sanitize_eq_spec_pipeline (s : String) :
    sanitizeString s = ⟨specStrip (specDespace (joinNewlines (specTrim s.data)))⟩ := by
  rw [sanitizeString]
  apply congrArg String.mk
  rw [sanitizeCore, specStrip_eq, specDespace_eq, specTrim_eq]

/-! ## Idempotence of the normalizer on control-character-free input (claim C5) -/

theorem joinNewlines_id_of_no_nl : ∀ l : List Char, (∀ c ∈ l, c ≠ '\n') → joinNewlines l = l := by
  intro l
  induction l with
  | nil => intro _; rfl
  | cons a t ih =>
    intro h
    cases t with
    | nil => rfl
    | cons b t2 =>
      cases t2 with
      | nil => rfl
      | cons c rest =>
        rw [joinNewlines, if_neg]
        · rw [ih (fun x hx => h x (List.mem_cons_of_mem a hx))]
        · intro hcond
          exact absurd hcond.2.1 (h b (by simp))

theorem mem_trimGo {l : List Char} {c : Char} (h : c ∈ trimGo l) : c ∈ l := by
  simp only [trimGo, List.mem_reverse] at h
  have h1 := (List.dropWhile_sublist goWhite).subset h
  rw [List.mem_reverse] at h1
  exact (List.dropWhile_sublist goWhite).subset h1

theorem mem_despaceAux {c : Char} : ∀ {l : List Char} {n : Nat},
    c ∈ despaceAux n l → c = ' ' ∨ c ∈ l := by
  intro l
  induction l with
  | nil =>
    intro n h
    rw [despaceAux] at h
    by_cases hn : n = 1
    · rw [if_pos hn] at h
      simp at h
      exact Or.inl h
    · rw [if_neg hn] at h
      simp at h
  | cons a rest ih =>
    intro n h
    rw [despaceAux] at h
    by_cases ha : a = ' '
    · rw [if_pos ha] at h
      rcases ih h with h1 | h1
      · exact Or.inl h1
      · exact Or.inr (List.mem_cons_of_mem a h1)
    · rw [if_neg ha] at h
      rw [List.mem_append] at h
      rcases h with h1 | h1
      · by_cases hn : n = 1
        · rw [if_pos hn] at h1
          simp at h1
          exact Or.inl h1
        · rw [if_neg hn] at h1
          simp at h1
      · rcases List.mem_cons.mp h1 with h2 | h2
        · exact Or.inr (by simp [h2])
        · rcases ih h2 with h3 | h3
          · exact Or.inl h3
          · exact Or.inr (List.mem_cons_of_mem a h3)

theorem stripTabsCRs_id {l : List Char} (h : ∀ c ∈ l, c ≠ '\t' ∧ c ≠ '\r') :
    stripTabsCRs l = l := by
  rw [stripTabsCRs, List.filter_eq_self]
  intro a ha
  have := h a ha
  simp [this.1, this.2]

theorem head_dropWhile_false {p : Char → Bool} : ∀ (l : List Char) {c : Char},
    (l.dropWhile p).head? = some c → p c = false := by
  intro l
  induction l with
  | nil => intro c h; simp at h
  | cons a t ih =>
    intro c h
    by_cases ha : p a = true
    · rw [List.dropWhile_cons_of_pos ha] at h
      exact ih h
    · rw [List.dropWhile_cons_of_neg (by simp [ha])] at h
      simp at h
      subst h
      simpa using ha

theorem getLast?_of_suffix {s l : List Char} (h : s <:+ l) (hne : s ≠ []) :
    l.getLast? = s.getLast? := by
  obtain ⟨t, rfl⟩ := h
  rw [List.getLast?_append]
  cases s with
  | nil => exact absurd rfl hne
  | cons a s' =>
    cases hs : (a :: s').getLast? with
    | none => simp at hs
    | some g => rfl

theorem trimGo_head_not_white {l : List Char} {c : Char} (h : (trimGo l).head? = some c) :
    goWhite c = false := by
  rw [trimGo, List.head?_reverse] at h
  have hsuf : ((l.dropWhile goWhite).reverse).dropWhile goWhite <:+ (l.dropWhile goWhite).reverse :=
    List.dropWhile_suffix _
  have hne : ((l.dropWhile goWhite).reverse).dropWhile goWhite ≠ [] := by
    intro hnil
    rw [hnil] at h
    simp at h
  rw [← getLast?_of_suffix hsuf hne, List.getLast?_reverse] at h
  exact head_dropWhile_false _ h

theorem trimGo_getLast_not_white {l : List Char} {c : Char} (h : (trimGo l).getLast? = some c) :
    goWhite c = false := by
  rw [trimGo, List.getLast?_reverse] at h
  exact head_dropWhile_false _ h

theorem trimGo_eq_self {l : List Char}
    (hh : ∀ c ∈ l.head?, goWhite c = false)
    (hg : ∀ c ∈ l.getLast?, goWhite c = false) : trimGo l = l := by
  cases l with
  | nil => rfl
  | cons a t =>
    have ha : goWhite a = false := hh a (by simp)
    rw [trimGo, List.dropWhile_cons_of_neg (by simp [ha])]
    cases hrev : (a :: t).reverse with
    | nil => simp at hrev
    | cons b rt =>
      have hb : (a :: t).getLast? = some b := by
        rw [← List.head?_reverse, hrev]
        rfl
      have hbw : goWhite b = false := hg b (by rw [hb]; simp)
      rw [List.dropWhile_cons_of_neg (by simp [hbw]), ← hrev, List.reverse_reverse]

theorem despaceAux_zero_cons {c : Char} (hc : c ≠ ' ') (rest : List Char) :
    despaceAux 0 (c :: rest) = c :: despaceAux 0 rest := by
  rw [despaceAux, if_neg hc]
  simp

theorem getLast?_cons_of_some {c g : Char} {l : List Char} (h : l.getLast? = some g) :
    (c :: l).getLast? = some g := by
  cases l with
  | nil => simp at h
  | cons x xs =>
    rw [List.getLast?_cons_cons]
    exact h

theorem despaceAux_getLast {g : Char} (hg : g ≠ ' ') : ∀ (l : List Char) (n : Nat),
    l.getLast? = some g → (despaceAux n l).getLast? = some g := by
  intro l
  induction l with
  | nil => intro n h; simp at h
  | cons c rest ih =>
    intro n h
    by_cases hc : c = ' '
    · rw [despaceAux, if_pos hc]
      cases rest with
      | nil =>
        subst hc
        simp at h
        exact absurd h.symm hg
      | cons r rs =>
        rw [List.getLast?_cons_cons] at h
        exact ih (n + 1) h
    · rw [despaceAux, if_neg hc]
      cases rest with
      | nil =>
        simp at h
        subst h
        rw [List.getLast?_append]
        rw [show despaceAux 0 ([] : List Char) = [] from rfl]
        simp
      | cons r rs =>
        rw [List.getLast?_cons_cons] at h
        have hx := ih 0 h
        rw [List.getLast?_append, getLast?_cons_of_some hx]
        rfl

theorem noTwoSpaces_cons {c : Char} {l : List Char} (hc : c ≠ ' ')
    (hl : noTwoSpaces l = true) : noTwoSpaces (c :: l) = true := by
  cases l with
  | nil => rfl
  | cons b t =>
    rw [noTwoSpaces]
    simp [hc, hl]

theorem despaceAux_noTwoSpaces : ∀ (l : List Char) (n : Nat),
    noTwoSpaces (despaceAux n l) = true := by
  intro l
  induction l with
  | nil =>
    intro n
    rw [despaceAux]
    by_cases hn : n = 1
    · rw [if_pos hn]; rfl
    · rw [if_neg hn]; rfl
  | cons c rest ih =>
    intro n
    by_cases hc : c = ' '
    · rw [despaceAux, if_pos hc]
      exact ih (n + 1)
    · rw [despaceAux, if_neg hc]
      have hx : noTwoSpaces (c :: despaceAux 0 rest) = true := noTwoSpaces_cons hc (ih 0)
      by_cases hn : n = 1
      · rw [if_pos hn, List.singleton_append, noTwoSpaces]
        simp [hc, hx]
      · rw [if_neg hn, List.nil_append]
        exact hx

theorem despaceAux_id_of_noTwo : ∀ l : List Char, noTwoSpaces l = true → despaceAux 0 l = l := by
  intro l
  induction l with
  | nil => intro _; rfl
  | cons c rest ih =>
    intro h
    by_cases hc : c = ' '
    · subst hc
      cases rest with
      | nil => rfl
      | cons r rs =>
        have hr : r ≠ ' ' := by
          intro hr'
          subst hr'
          rw [noTwoSpaces] at h
          simp at h
        have hrest : noTwoSpaces (r :: rs) = true := by
          rw [noTwoSpaces] at h
          simp only [Bool.and_eq_true] at h
          exact h.2
        have hih := ih hrest
        rw [despaceAux_zero_cons hr] at hih
        have h2 : despaceAux 0 rs = rs := by
          injection hih
        rw [despaceAux, if_pos rfl, despaceAux, if_neg hr, if_pos rfl, List.singleton_append, h2]
    · have hrest : noTwoSpaces rest = true := by
        cases rest with
        | nil => rfl
        | cons b t =>
          rw [noTwoSpaces] at h
          simp only [Bool.and_eq_true] at h
          exact h.2
      rw [despaceAux_zero_cons hc, ih hrest]

/-- Claim C5 (amended): `sanitizeString` is idempotent on strings free of
newline, tab, and carriage-return characters (the three characters whose
handling makes the general statement fail). -/
theorem sanitize_idempotent_no_ctrl (s : String)
    (h : ∀ c ∈ s.data, c ≠ '\n' ∧ c ≠ '\t' ∧ c ≠ '\r') :
    sanitizeString (sanitizeString s) = sanitizeString s := by
  rw [sanitizeString, sanitizeString]
  apply congrArg String.mk
  show sanitizeCore (sanitizeCore s.data) = sanitizeCore s.data
  have hjoin : joinNewlines (trimGo s.data) = trimGo s.data :=
    joinNewlines_id_of_no_nl _ (fun c hc => (h c (mem_trimGo hc)).1)
  have hstrip1 : stripTabsCRs (despace (trimGo s.data)) = despace (trimGo s.data) := by
    apply stripTabsCRs_id
    intro c hc
    rcases mem_despaceAux (hc : c ∈ despaceAux 0 (trimGo s.data)) with h1 | h1
    · subst h1
      exact ⟨by decide, by decide⟩
    · exact ⟨(h c (mem_trimGo h1)).2.1, (h c (mem_trimGo h1)).2.2⟩
  have hy : sanitizeCore s.data = despace (trimGo s.data) := by
    rw [sanitizeCore, hjoin, hstrip1]
  rw [hy]
  have hyhead : ∀ c ∈ (despace (trimGo s.data)).head?, goWhite c = false := by
    intro c hc
    cases htl : trimGo s.data with
    | nil =>
      rw [htl] at hc
      simp [despace, despaceAux] at hc
    | cons a t =>
      have haw : goWhite a = false := trimGo_head_not_white (by rw [htl]; rfl)
      have ha : a ≠ ' ' := by
        intro h'
        subst h'
        simp [goWhite, isGoSpace] at haw
      rw [htl, despace, despaceAux_zero_cons ha] at hc
      simp at hc
      subst hc
      exact haw
  have hyglast : ∀ c ∈ (despace (trimGo s.data)).getLast?, goWhite c = false := by
    intro c hc
    cases htl : (trimGo s.data).getLast? with
    | none =>
      have : trimGo s.data = [] := by
        cases hq : trimGo s.data with
        | nil => rfl
        | cons a t =>
          rw [hq] at htl
          cases hx : (a :: t).getLast? with
          | none => simp at hx
          | some g => rw [hx] at htl; cases htl
      rw [this] at hc
      simp [despace, despaceAux] at hc
    | some g =>
      have hgw : goWhite g = false := trimGo_getLast_not_white htl
      have hg : g ≠ ' ' := by
        intro h'
        subst h'
        simp [goWhite, isGoSpace] at hgw
      have := despaceAux_getLast hg (trimGo s.data) 0 htl
      rw [show despace (trimGo s.data) = despaceAux 0 (trimGo s.data) from rfl, this] at hc
      simp at hc
      subst hc
      exact hgw
  have htrim2 : trimGo (despace (trimGo s.data)) = despace (trimGo s.data) :=
    trimGo_eq_self hyhead hyglast
  have hnl2 : ∀ c ∈ despace (trimGo s.data), c ≠ '\n' := by
    intro c hc
    rcases mem_despaceAux (hc : c ∈ despaceAux 0 (trimGo s.data)) with h1 | h1
    · subst h1
      decide
    · exact (h c (mem_trimGo h1)).1
  have hjoin2 : joinNewlines (despace (trimGo s.data)) = despace (trimGo s.data) :=
    joinNewlines_id_of_no_nl _ hnl2
  have hdes2 : despace (despace (trimGo s.data)) = despace (trimGo s.data) :=
    despaceAux_id_of_noTwo _ (despaceAux_noTwoSpaces _ 0)
  have hstrip2 : stripTabsCRs (despace (trimGo s.data)) = despace (trimGo s.data) := hstrip1
  rw [sanitizeCore, htrim2, hjoin2, hdes2, hstrip2]

/-- Witness for `sanitize_idempotent_no_ctrl` at a concrete string. -/
theorem sanitize_idempotent_no_ctrl_witness :
    sanitizeString (sanitizeString "  a  b c ") = sanitizeString "  a  b c " :=
  sanitize_idempotent_no_ctrl "  a  b c " (by decide)

end AFD
